import Mathlib

/-!
Verification of the migration/seeder dependency and ordering engine of
`go-clean-gin` (`internal/migrations/manager.go`, `internal/seeders/manager.go`).

The Go code is shallowly embedded: Go maps become association lists with
last-write-wins insertion, the database handle becomes an explicit state
record, iteration over Go maps (whose order is unspecified) is parameterised
by an explicit enumeration of the keys, and the recursive / looping
algorithms are written with explicit fuel chosen large enough that the fuel
can never run out on the inputs the original code sees.
-/

namespace GoCleanGin

/-! ## Byte-lexicographic string order

`sort.Strings` compares strings byte-wise.  UTF-8 is order-preserving with
respect to code points, so comparing the code-point sequences gives exactly
the same order; Lean's built-in `String` order does not kernel-reduce, so we
define the comparison directly. -/

/-- Lexicographic order on code-point sequences. -/
def lexLe : List Char → List Char → Bool
  | [], _ => true
  | _ :: _, [] => false
  | a :: as, b :: bs =>
      if a.toNat < b.toNat then true
      else if b.toNat < a.toNat then false
      else lexLe as bs

/-- Go's byte-wise string comparison used by `sort.Strings`. -/
def strLe (s t : String) : Bool := lexLe s.data t.data

/-- Strict byte-wise string comparison. -/
def strLt (s t : String) : Bool := strLe s t && !(s == t)

/-! ## Association-list model of a Go `map[string]V`

`mm.migrations[version] = migration` and `seederMap[name] = seeder` insert
with overwrite; lookup finds the unique binding. -/

/-- Insert with overwrite, as assignment into a Go map does. -/
def mapInsert {α : Type} (reg : List (String × α)) (k : String) (v : α) :
    List (String × α) :=
  if reg.any (fun p => p.1 == k) then
    reg.map (fun p => if p.1 == k then (k, v) else p)
  else
    reg ++ [(k, v)]

/-- Lookup in the association-list model of a Go map. -/
def lookupMap {α : Type} (reg : List (String × α)) (k : String) : Option α :=
  (reg.find? (fun p => p.1 == k)).map (·.2)

/-! ## Migration engine (`internal/migrations/manager.go`) -/

/-- A registered migration: the `Migration` interface.  `Up`/`Down` act on the
application-owned part of the database (opaque to the manager), modelled as a
`Nat`; a failing step returns `.error` with its message. -/
structure Migration where
  version : String
  description : String
  up : Nat → Except String Nat
  down : Nat → Except String Nat

/-- One row of the `migration_records` ledger table. -/
structure MigrationRecord where
  version : String
  description : String
  appliedAt : Nat
  deriving DecidableEq, Repr

/-- The database seen by the manager: the ledger table plus the
application-owned state that `Up`/`Down`/`Run` act on.  `clock` models the
strictly increasing wall clock read by `time.Now().UTC()` when a ledger row
is inserted. -/
structure DB where
  ledger : List MigrationRecord
  app : Nat
  clock : Nat
  deriving DecidableEq, Repr

/-- `mm.migrations[migration.Version()] = migration` (`RegisterMigration`). -/
def registerMigration (reg : List (String × Migration)) (m : Migration) :
    List (String × Migration) :=
  mapInsert reg m.version m

/-- The registry built by registering each migration in turn. -/
def buildRegistry (ms : List Migration) : List (String × Migration) :=
  ms.foldl registerMigration []

/-- The versions present in the ledger (`appliedMap`). -/
def appliedVersions (db : DB) : List String :=
  db.ledger.map (·.version)

/-- `runSingleMigration`: run `Up` inside a transaction and insert the ledger
row; on failure the transaction is rolled back, leaving the database
unchanged. -/
def runSingleMigration (db : DB) (m : Migration) : Except String DB :=
  match m.up db.app with
  | .error e => .error ("migration failed: " ++ e)
  | .ok app' =>
      .ok { ledger := db.ledger ++ [⟨m.version, m.description, db.clock⟩]
          , app := app'
          , clock := db.clock + 1 }

/-- Outcome of `RunMigrations`: the database after the run (the Go code
mutates the shared handle, so committed work survives an error), the versions
whose `Up` was invoked in invocation order, and the returned error if any. -/
structure RunOutcome where
  db : DB
  attempted : List String
  err : Option String
  deriving DecidableEq

/-- The loop of `RunMigrations` over the sorted `(version, migration)` pairs:
skip versions in `applied`, otherwise run the migration; the first failure
aborts, naming the failing version. -/
def runMigrationsLoop (applied : List String) :
    List (String × Migration) → DB → RunOutcome
  | [], db => ⟨db, [], none⟩
  | (v, m) :: rest, db =>
      if v ∈ applied then runMigrationsLoop applied rest db
      else
        match runSingleMigration db m with
        | .error e => ⟨db, [v], some ("migration " ++ v ++ " failed: " ++ e)⟩
        | .ok db' =>
            let r := runMigrationsLoop applied rest db'
            ⟨r.db, v :: r.attempted, r.err⟩

/-- The registry as `(version, migration)` pairs sorted ascending by version,
modelling `sort.Strings(versions)` followed by map lookup. -/
def sortedPairs (ms : List Migration) : List (String × Migration) :=
  (buildRegistry ms).insertionSort (fun a b => strLe a.1 b.1 = true)

/-- `RunMigrations`: load the applied set, sort the registered versions
ascending, and run every pending migration in that order. -/
def runMigrations (ms : List Migration) (db : DB) : RunOutcome :=
  runMigrationsLoop (appliedVersions db) (sortedPairs ms) db

/-- `ORDER BY applied_at DESC` over the ledger rows. -/
def sortLedgerDesc (l : List MigrationRecord) : List MigrationRecord :=
  l.insertionSort (fun a b => b.appliedAt ≤ a.appliedAt)

/-! ## Seeder engine (`internal/seeders/manager.go`) -/

/-- A registered seeder: the `Seeder` interface.  `run` acts on the
application-owned database state. -/
structure Seeder where
  name : String
  dependencies : List String
  run : Nat → Except String Nat

/-- `seederMap[seeder.Name()] = seeder`, built from the registration slice
`sm.seeders`; a later registration with the same name overwrites the earlier
one in the map. -/
def buildSeederMap (sms : List Seeder) : List (String × Seeder) :=
  sms.foldl (fun reg s => mapInsert reg s.name s) []

/-- The dependency list of the seeder registered under a name (empty when the
name is not registered). -/
def depsOf (smap : List (String × Seeder)) (n : String) : List String :=
  match lookupMap smap n with
  | some s => s.dependencies
  | none => []

/-- One step of the dependency relation over the lookup map: `v` is a declared
dependency of the seeder registered under `u`. -/
def depStep (smap : List (String × Seeder)) (u v : String) : Prop :=
  v ∈ depsOf smap u

/-- `v` is a transitive dependency of `u`. -/
def Reaches (smap : List (String × Seeder)) (u v : String) : Prop :=
  Relation.TransGen (depStep smap) u v

/-- A list of names in which every name's declared dependencies occur, each
strictly earlier in the list. -/
def StrictDepOrder (deps : String → List String) (l : List String) : Prop :=
  l.Nodup ∧ ∀ a ∈ l, ∀ d ∈ deps a, d ∈ l ∧ l.indexOf d < l.indexOf a

/-- The mutable state of the depth-first `visit` closure in
`resolveDependenciesFor`: the `visiting` and `visited` marks and the
accumulated `result` slice. -/
structure VisitState where
  visiting : List String
  visited : List String
  result : List Seeder

/-- The names of the seeders accumulated so far. -/
def VisitState.names (st : VisitState) : List String :=
  st.result.map Seeder.name

/-- The recursive `visit` closure of `resolveDependenciesFor`, written as a
worklist over the names still to visit at the current level: cycle check on
the `visiting` mark, early return on `visited`, lookup (a missing name is a
fatal error), then visit all dependencies before appending the seeder and
moving on to the next name of the level.  Every recursive call consumes one
unit of fuel, so the recursion is structural; `resolveDependenciesFor` passes
more fuel than the call tree of the original (unfuelled) recursion is deep,
so the fuel can never run out on the calls the Go code makes. -/
def visitGo (smap : List (String × Seeder)) :
    Nat → List String → VisitState → Except String VisitState
  | 0, _, _ => .error "seeder recursion depth exceeded"
  | _ + 1, [], st => .ok st
  | fuel + 1, name :: ns, st =>
      if name ∈ st.visiting then
        .error ("circular dependency detected involving " ++ name)
      else if name ∈ st.visited then visitGo smap fuel ns st
      else
        match lookupMap smap name with
        | none => .error ("seeder " ++ name ++ " not found")
        | some s =>
            match visitGo smap fuel s.dependencies
                { st with visiting := st.visiting ++ [name] } with
            | .error e => .error e
            | .ok st' =>
                visitGo smap fuel ns
                  { visiting := st'.visiting.erase name
                  , visited := st'.visited ++ [name]
                  , result := st'.result ++ [s] }

/-- Fuel that the depth of `visitGo`'s call tree can never reach: every level
of the tree either walks one step along some registered seeder's dependency
list or descends into a distinct seeder, so the depth is at most the total
size of the registry. -/
def seederFuel (smap : List (String × Seeder)) : Nat :=
  (smap.map (fun p => p.2.dependencies.length + 1)).sum + 1

/-- `resolveDependenciesFor`: depth-first resolution of the target's
dependency closure. -/
def resolveDependenciesFor (sms : List Seeder) (targetName : String) :
    Except String (List Seeder) :=
  let smap := buildSeederMap sms
  match visitGo smap (seederFuel smap) [targetName] ⟨[], [], []⟩ with
  | .error e => .error e
  | .ok st => .ok st.result

/-- The inner graph-building loop of `topologicalSort` for one seeder:
`graph[dep] = append(graph[dep], name)` and `inDegree[name]++` for every
declared dependency.  The maps are total functions whose entries start at the
zero values the Go code initialises them with. -/
def addEdges (smap : List (String × Seeder)) (name : String) :
    List String → (String → List String) × (String → Int) →
      (String → List String) × (String → Int)
  | [], p => p
  | dep :: ds, p =>
      addEdges smap name ds
        (fun x => if x = dep then p.1 x ++ [name] else p.1 x,
         fun x => if x = name then p.2 x + 1 else p.2 x)

/-- The outer graph-building loop over the map-iteration order. -/
def buildGraphDeg (smap : List (String × Seeder)) (order : List String) :
    (String → List String) × (String → Int) :=
  order.foldl (fun acc name => addEdges smap name (depsOf smap name) acc)
    (fun _ => [], fun _ => 0)

/-- One pass of `for _, neighbor := range graph[current]`: decrement each
neighbour's in-degree, enqueueing it when the degree reaches zero. -/
def processNeighbors :
    List String → (String → Int) → List String → (String → Int) × List String
  | [], inDeg, queue => (inDeg, queue)
  | nb :: ns, inDeg, queue =>
      let d := inDeg nb - 1
      processNeighbors ns (fun x => if x = nb then d else inDeg x)
        (if d = 0 then queue ++ [nb] else queue)

/-- The dequeue loop of Kahn's algorithm.  Each iteration consumes one fuel
and appends one name; `topologicalSort` passes `n + 1` fuel, so on the runs
the Go code performs (at most `n` dequeues, the queue then empty) the fuel
never runs out, and a run that would need more fuel produces a list longer
than `n`, failing the same length check that reports a cycle in Go. -/
def kahnLoop (graph : String → List String) :
    Nat → List String → (String → Int) → List String → List String
  | 0, _, _, result => result
  | _ + 1, [], _, result => result
  | fuel + 1, current :: rest, inDeg, result =>
      let p := processNeighbors (graph current) inDeg rest
      kahnLoop graph fuel p.2 p.1 (result ++ [current])

/-- `topologicalSort` (Kahn's algorithm).  `buildOrder` and `seedOrder` are
the iteration orders of the two `range` loops over the seeder map — Go leaves
them unspecified, so they are parameters; any enumeration of the keys is a
possible behaviour of the Go code. -/
def topologicalSort (smap : List (String × Seeder))
    (buildOrder seedOrder : List String) : Except String (List String) :=
  let gd := buildGraphDeg smap buildOrder
  let queue := seedOrder.filter (fun n => gd.2 n == 0)
  let result := kahnLoop gd.1 (smap.length + 1) queue gd.2 []
  if result.length ≠ smap.length then
    .error "circular dependency detected in seeders"
  else .ok result

/-- The missing-dependency pre-check of `resolveDependencies`: the first
`(seeder name, dependency)` pair, in registration order, whose dependency is
not in the map. -/
def findMissingDep (sms : List Seeder) (smap : List (String × Seeder)) :
    Option (String × String) :=
  sms.findSome? (fun s =>
    (s.dependencies.find? (fun d => (lookupMap smap d).isNone)).map
      (fun d => (s.name, d)))

/-- `resolveDependencies`: validate that every declared dependency is
registered, then topologically sort.  Returns the ordered names. -/
def resolveDependencies (sms : List Seeder) (buildOrder seedOrder : List String) :
    Except String (List String) :=
  let smap := buildSeederMap sms
  match findMissingDep sms smap with
  | some p =>
      .error ("seeder " ++ p.1 ++ " depends on " ++ p.2 ++ " but " ++ p.2 ++
              " not found")
  | none => topologicalSort smap buildOrder seedOrder

/-- Outcome of a seeder run: the application state, the names whose `Run` was
invoked in invocation order, and the returned error if any. -/
structure SeedOutcome where
  app : Nat
  executed : List String
  err : Option String
  deriving DecidableEq

/-- Run a resolved list of seeders in order, aborting on the first failure
(`seeder %s failed: %w`). -/
def runSeedList : List Seeder → Nat → SeedOutcome
  | [], app => ⟨app, [], none⟩
  | s :: rest, app =>
      match s.run app with
      | .error e => ⟨app, [s.name], some ("seeder " ++ s.name ++ " failed: " ++ e)⟩
      | .ok app' =>
          let r := runSeedList rest app'
          ⟨r.app, s.name :: r.executed, r.err⟩

/-- The suffix check `strings.HasSuffix`. -/
def hasSuffix (s suf : String) : Bool :=
  decide (suf.data <:+ s.data)

/-- `RunSpecificSeeder`: find the target (first registered seeder with that
name), resolve its dependency closure, and run it. -/
def runSpecificSeeder (sms : List Seeder) (name : String) (app : Nat) :
    SeedOutcome :=
  match sms.find? (fun s => s.name == name) with
  | none => ⟨app, [], some ("seeder " ++ name ++ " not found")⟩
  | some target =>
      match resolveDependenciesFor sms target.name with
      | .error e =>
          ⟨app, [], some ("failed to resolve dependencies for " ++ name ++
                          ": " ++ e)⟩
      | .ok toRun => runSeedList toRun app

/-- `RunSeeders`: an empty registry is an immediate success; a non-empty
target name (suffixed with `Seeder` if needed) runs the specific seeder,
wrapping its error; otherwise the global order is resolved and run. -/
def runSeeders (sms : List Seeder) (seederName : String)
    (buildOrder seedOrder : List String) (app : Nat) : SeedOutcome :=
  if sms.length = 0 then ⟨app, [], none⟩
  else if seederName = "" then
    match resolveDependencies sms buildOrder seedOrder with
    | .error e => ⟨app, [], some ("failed to resolve dependencies: " ++ e)⟩
    | .ok names =>
        runSeedList (names.filterMap (lookupMap (buildSeederMap sms))) app
  else
    let finalName :=
      if hasSuffix seederName "Seeder" then seederName
      else seederName ++ "Seeder"
    let r := runSpecificSeeder sms finalName app
    match r.err with
    | some e =>
        ⟨r.app, r.executed, some ("seeder " ++ finalName ++ " failed: " ++ e)⟩
    | none => r

/-- `rollbackSingleMigration`: run `Down` in a transaction and delete the
ledger row; on failure the transaction is rolled back. -/
def rollbackSingleMigration (db : DB) (m : Migration) (rec : MigrationRecord) :
    Except String DB :=
  match m.down db.app with
  | .error e => .error ("rollback failed: " ++ e)
  | .ok app' => .ok { db with app := app', ledger := db.ledger.erase rec }

/-- Outcome of `RollbackMigrations`. -/
structure RollbackOutcome where
  db : DB
  rolledBack : List String
  err : Option String

/-- The loop of `RollbackMigrations` over the selected ledger records. -/
def rollbackLoop (reg : List (String × Migration)) :
    List MigrationRecord → DB → RollbackOutcome
  | [], db => ⟨db, [], none⟩
  | rec :: rest, db =>
      match lookupMap reg rec.version with
      | none =>
          ⟨db, [], some ("migration " ++ rec.version ++
                         " not found in registered migrations")⟩
      | some m =>
          match rollbackSingleMigration db m rec with
          | .error e =>
              ⟨db, [], some ("rollback failed for migration " ++ rec.version ++
                             ": " ++ e)⟩
          | .ok db' =>
              let r := rollbackLoop reg rest db'
              ⟨r.db, rec.version :: r.rolledBack, r.err⟩

/-- `RollbackMigrations(count)`: reject non-positive counts, select the
`count` most recently applied ledger rows (`ORDER BY applied_at DESC LIMIT
count`), and roll them back in that order. -/
def rollbackMigrations (ms : List Migration) (db : DB) (count : Int) :
    RollbackOutcome :=
  if count ≤ 0 then ⟨db, [], some "rollback count must be greater than 0"⟩
  else rollbackLoop (buildRegistry ms) ((sortLedgerDesc db.ledger).take count.toNat) db

/-! ## Concrete work units used in examples and witnesses -/

/-- The pending `(version, migration)` pairs of a run, in execution order. -/
def pendingPairs (ms : List Migration) (db : DB) : List (String × Migration) :=
  (sortedPairs ms).filter (fun p => decide (p.1 ∉ appliedVersions db))

/-- Example migration `a` of the version-ordering property. -/
def migA : Migration :=
  ⟨"2024_01_01_000000_a", "create a", fun n => .ok (n + 1), fun n => .ok n⟩

/-- Example migration `b` of the version-ordering property. -/
def migB : Migration :=
  ⟨"2024_01_02_000000_b", "create b", fun n => .ok (n + 10), fun n => .ok n⟩

/-- Example migration `c` of the version-ordering property. -/
def migC : Migration :=
  ⟨"2024_01_01_500000_c", "create c", fun n => .ok (n + 100), fun n => .ok n⟩

/-- A migration sharing `migC`'s version whose `up` fails. -/
def migBad : Migration :=
  ⟨"2024_01_01_500000_c", "create c", fun _ => .error "boom", fun n => .ok n⟩

/-- A migration whose `down` always succeeds, for the rollback example. -/
def rbM1 : Migration := ⟨"v1", "d1", fun n => .ok n, fun n => .ok (n + 1)⟩

/-- A second migration whose `down` always succeeds. -/
def rbM2 : Migration := ⟨"v2", "d2", fun n => .ok n, fun n => .ok (n + 2)⟩

/-- A two-row ledger: `v1` applied at tick 0, `v2` at tick 1. -/
def rbLedger : List MigrationRecord := [⟨"v1", "d1", 0⟩, ⟨"v2", "d2", 1⟩]

/-- Example seeder `A` (no dependencies). -/
def exA : Seeder := ⟨"A", [], fun n => .ok (n + 1)⟩

/-- Example seeder `B`, depending on `A`. -/
def exB : Seeder := ⟨"B", ["A"], fun n => .ok (n + 2)⟩

/-- Example seeder `C`, depending on `B`. -/
def exC : Seeder := ⟨"C", ["B"], fun n => .ok (n + 4)⟩

/-- Example seeder `D`, unrelated to the others. -/
def exD : Seeder := ⟨"D", [], fun n => .ok (n + 8)⟩

/-- One half of a two-cycle. -/
def cycAlpha : Seeder := ⟨"Alpha", ["Beta"], fun n => .ok n⟩

/-- The other half of a two-cycle. -/
def cycBeta : Seeder := ⟨"Beta", ["Alpha"], fun n => .ok n⟩

/-- A seeder depending on `BSeeder`. -/
def chainC : Seeder := ⟨"CSeeder", ["BSeeder"], fun n => .ok n⟩

/-- A seeder depending on the never-registered name `Ghost`. -/
def chainB : Seeder := ⟨"BSeeder", ["Ghost"], fun n => .ok n⟩

/-- A seeder named `ProductSeeder`, for the name-suffix property. -/
def prodSeeder : Seeder := ⟨"ProductSeeder", [], fun n => .ok (n + 1)⟩

/-- Two seeders registered under the same name with distinguishable `run`
behaviours. -/
def dupX1 : Seeder := ⟨"X", [], fun n => .ok (n + 1)⟩

/-- The later registration under the duplicated name. -/
def dupX2 : Seeder := ⟨"X", [], fun n => .ok (n + 2)⟩

/-! ## Invariants used to verify the two resolvers -/

/-- Invariant of the depth-first visit state: the `visited` marks are exactly
the names of the accumulated result, and the result is dependency-closed and
ordered. -/
abbrev VisitInv (smap : List (String × Seeder)) (st : VisitState) : Prop :=
  st.visited = st.names ∧ StrictDepOrder (depsOf smap) st.names

/-- Post-condition of a successful depth-first visit of the worklist `roots`:
the invariant is preserved, the `visiting` marks are restored, the result is
extended, every root ends up in the result, and every new name was not an
in-progress mark and is a root or transitively required by one. -/
abbrev VisitPost (smap : List (String × Seeder)) (roots : List String)
    (st st' : VisitState) : Prop :=
  VisitInv smap st' ∧ st'.visiting = st.visiting ∧
  (∃ t, st'.result = st.result ++ t) ∧
  (∀ n ∈ roots, n ∈ st'.names) ∧
  (∀ x ∈ st'.names, x ∈ st.names ∨
     (x ∉ st.visiting ∧ ∃ n ∈ roots, x = n ∨ Reaches smap n x))

/-- Invariant of the Kahn dequeue loop: the result and queue are disjoint
lists of registered names without duplicates, queued names have in-degree
zero, emitted names have non-positive in-degree, every registered name not
yet emitted has as in-degree its number of not-yet-emitted dependencies, and
the emitted list is dependency-closed and ordered. -/
abbrev KahnInv (smap : List (String × Seeder)) (queue : List String)
    (deg : String → Int) (result : List String) : Prop :=
  (result ++ queue).Nodup ∧
  (∀ x ∈ queue, deg x = 0) ∧
  (∀ x ∈ result, deg x ≤ 0) ∧
  (∀ x ∈ smap.map Prod.fst, x ∉ result →
     deg x = (((depsOf smap x).filter (fun d => decide (d ∉ result))).length : Int)) ∧
  (∀ x ∈ result, x ∈ smap.map Prod.fst) ∧
  (∀ x ∈ queue, x ∈ smap.map Prod.fst) ∧
  StrictDepOrder (depsOf smap) result

/-! ## Helper lemmas: the byte-lexicographic order -/

theorem lexLe_total : ∀ a b : List Char, lexLe a b = true ∨ lexLe b a = true
  | [], _ => by left; rfl
  | _ :: _, [] => by right; rfl
  | a :: as, b :: bs => by
      simp only [lexLe]
      rcases Nat.lt_trichotomy a.toNat b.toNat with h | h | h
      · left; simp [h]
      · have h' : ¬ a.toNat < b.toNat := by omega
        have h'' : ¬ b.toNat < a.toNat := by omega
        simpa [h', h''] using lexLe_total as bs
      · right; simp [h]

theorem lexLe_true_iff {a : Char} {as : List Char} {b : Char} {bs : List Char} :
    lexLe (a :: as) (b :: bs) = true ↔
      a.toNat < b.toNat ∨ (a.toNat = b.toNat ∧ lexLe as bs = true) := by
  by_cases h₁ : a.toNat < b.toNat
  · simp [lexLe, h₁]
  · by_cases h₂ : b.toNat < a.toNat
    · simp [lexLe, h₁, h₂]; omega
    · have h₃ : a.toNat = b.toNat := by omega
      simp [lexLe, h₁, h₂, h₃]

theorem lexLe_trans : ∀ {a b c : List Char},
    lexLe a b = true → lexLe b c = true → lexLe a c = true
  | [], _, _, _, _ => rfl
  | _ :: _, [], _, h, _ => by simp [lexLe] at h
  | _ :: _, _ :: _, [], _, h => by simp [lexLe] at h
  | a :: as, b :: bs, c :: cs, h₁, h₂ => by
      rw [lexLe_true_iff] at h₁ h₂ ⊢
      rcases h₁ with h₁ | ⟨h₁, h₁'⟩ <;> rcases h₂ with h₂ | ⟨h₂, h₂'⟩
      · exact .inl (by omega)
      · exact .inl (by omega)
      · exact .inl (by omega)
      · exact .inr ⟨by omega, lexLe_trans h₁' h₂'⟩

theorem char_toNat_inj {a b : Char} (h : a.toNat = b.toNat) : a = b :=
  Char.ext (UInt32.ext h)

theorem lexLe_antisymm : ∀ {a b : List Char},
    lexLe a b = true → lexLe b a = true → a = b
  | [], [], _, _ => rfl
  | [], _ :: _, _, h => by simp [lexLe] at h
  | _ :: _, [], h, _ => by simp [lexLe] at h
  | a :: as, b :: bs, h₁, h₂ => by
      rw [lexLe_true_iff] at h₁ h₂
      rcases h₁ with h₁ | ⟨h₁, h₁'⟩ <;> rcases h₂ with h₂ | ⟨h₂, h₂'⟩ <;>
        try omega
      rw [char_toNat_inj h₁, lexLe_antisymm h₁' h₂']

theorem strLe_total (a b : String) : strLe a b = true ∨ strLe b a = true :=
  lexLe_total a.data b.data

theorem strLe_trans {a b c : String} (h₁ : strLe a b = true)
    (h₂ : strLe b c = true) : strLe a c = true :=
  lexLe_trans h₁ h₂

theorem strLe_antisymm {a b : String} (h₁ : strLe a b = true)
    (h₂ : strLe b a = true) : a = b := by
  cases a; cases b
  exact congrArg String.mk (lexLe_antisymm h₁ h₂)

theorem strLt_of_strLe_ne {a b : String} (h₁ : strLe a b = true) (h₂ : a ≠ b) :
    strLt a b = true := by
  simp only [strLt, Bool.and_eq_true, Bool.not_eq_true']
  exact ⟨h₁, beq_false_of_ne h₂⟩

/-! ## Helper lemmas: `indexOf` and `StrictDepOrder` -/

theorem indexOf_append_left {α : Type} [DecidableEq α] {a : α} :
    ∀ {l : List α} (t : List α), a ∈ l → (l ++ t).indexOf a = l.indexOf a := by
  intro l
  induction l with
  | nil => intro t h; cases h
  | cons b l ih =>
      intro t h
      by_cases hb : b = a
      · subst hb; simp [List.indexOf_cons_self]
      · have : a ∈ l := by
          rcases List.mem_cons.mp h with h' | h'
          · exact absurd h'.symm hb
          · exact h'
        simp only [List.cons_append, List.indexOf_cons_ne _ hb, ih t this]

theorem indexOf_append_not_mem {α : Type} [DecidableEq α] {a : α} :
    ∀ {l : List α} (t : List α), a ∉ l →
      (l ++ t).indexOf a = l.length + t.indexOf a := by
  intro l
  induction l with
  | nil => intro t _; simp
  | cons b l ih =>
      intro t h
      have hb : b ≠ a := fun hba => h (hba ▸ List.mem_cons_self b l)
      have ha : a ∉ l := fun ha => h (List.mem_cons_of_mem b ha)
      simp only [List.cons_append, List.indexOf_cons_ne _ hb, ih t ha,
        List.length_cons]
      omega

theorem StrictDepOrder.nil (deps : String → List String) :
    StrictDepOrder deps [] :=
  ⟨List.nodup_nil, by intro a ha; cases ha⟩

theorem StrictDepOrder.append_one {deps : String → List String}
    {l : List String} {x : String} (h : StrictDepOrder deps l) (hx : x ∉ l)
    (hd : ∀ d ∈ deps x, d ∈ l) : StrictDepOrder deps (l ++ [x]) := by
  obtain ⟨hnd, hord⟩ := h
  refine ⟨?_, ?_⟩
  · rw [List.nodup_append]
    exact ⟨hnd, List.nodup_singleton x, by
      intro a ha hax
      rw [List.mem_singleton] at hax
      exact hx (hax ▸ ha)⟩
  · intro a ha d hdep
    rcases List.mem_append.mp ha with ha' | ha'
    · obtain ⟨hdl, hlt⟩ := hord a ha' d hdep
      refine ⟨List.mem_append_left _ hdl, ?_⟩
      rw [indexOf_append_left _ hdl, indexOf_append_left _ ha']
      exact hlt
    · rw [List.mem_singleton] at ha'
      subst ha'
      have hdl := hd d hdep
      refine ⟨List.mem_append_left _ hdl, ?_⟩
      rw [indexOf_append_left _ hdl, indexOf_append_not_mem _ hx]
      have := List.indexOf_lt_length.mpr hdl
      simp [List.indexOf_cons_self]
      omega

theorem StrictDepOrder.reach {deps : String → List String} {l : List String}
    (h : StrictDepOrder deps l) {a b : String} (ha : a ∈ l)
    (hr : Relation.TransGen (fun u v => v ∈ deps u) a b) :
    b ∈ l ∧ l.indexOf b < l.indexOf a := by
  induction hr with
  | single hstep => exact h.2 a ha _ hstep
  | tail _ hstep ih =>
      obtain ⟨hbmem, hblt⟩ := ih
      obtain ⟨hcmem, hclt⟩ := h.2 _ hbmem _ hstep
      exact ⟨hcmem, Nat.lt_trans hclt hblt⟩

/-! ## Helper lemmas: the Go-map model -/

theorem lookupMap_mapInsert_self {α : Type} (reg : List (String × α))
    (k : String) (v : α) : lookupMap (mapInsert reg k v) k = some v := by
  unfold mapInsert
  by_cases h : reg.any (fun p => p.1 == k)
  · rw [if_pos h]
    simp only [lookupMap, List.find?_map]
    have hpred : ((fun p : String × α => p.1 == k) ∘
        fun p : String × α => if p.1 == k then (k, v) else p) =
        fun p : String × α => p.1 == k := by
      funext p
      by_cases hp : p.1 = k <;> simp [hp]
    rw [hpred]
    rcases List.any_eq_true.mp h with ⟨p₀, hp₀mem, hp₀⟩
    have hs : (reg.find? (fun p => p.1 == k)).isSome := by
      rw [List.find?_isSome]
      exact ⟨p₀, hp₀mem, hp₀⟩
    obtain ⟨q, hq⟩ := Option.isSome_iff_exists.mp hs
    have hq1 : q.1 = k := by
      have := List.find?_some hq
      simpa using this
    rw [hq]
    simp [hq1]
  · rw [if_neg h]
    simp only [lookupMap, List.find?_append]
    have hnone : reg.find? (fun p => p.1 == k) = none := by
      rw [List.find?_eq_none]
      intro p hp hpk
      exact h (List.any_eq_true.mpr ⟨p, hp, hpk⟩)
    simp [hnone]

theorem lookupMap_mapInsert_ne {α : Type} (reg : List (String × α))
    {k k' : String} (v : α) (h : k' ≠ k) :
    lookupMap (mapInsert reg k v) k' = lookupMap reg k' := by
  unfold mapInsert
  by_cases hany : reg.any (fun p => p.1 == k)
  · rw [if_pos hany]
    simp only [lookupMap, List.find?_map]
    have hpred : ((fun p : String × α => p.1 == k') ∘
        fun p : String × α => if p.1 == k then (k, v) else p) =
        fun p : String × α => p.1 == k' := by
      funext p
      by_cases hp : p.1 = k <;> simp [hp, Ne.symm h]
    rw [hpred]
    cases hfind : reg.find? (fun p => p.1 == k') with
    | none => simp
    | some q =>
        have hq1 : q.1 = k' := by
          have := List.find?_some hfind
          simpa using this
        have hqne : ¬ q.1 = k := by rw [hq1]; exact h
        simp [hqne]
  · rw [if_neg hany]
    simp only [lookupMap, List.find?_append]
    have hsingle : [(k, v)].find? (fun p => p.1 == k') = none := by
      simp [List.find?, beq_false_of_ne (Ne.symm h)]
    rw [hsingle, Option.or_none]

theorem keys_mapInsert {α : Type} (reg : List (String × α)) (k : String)
    (v : α) :
    (mapInsert reg k v).map Prod.fst =
      if reg.any (fun p => p.1 == k) then reg.map Prod.fst
      else reg.map Prod.fst ++ [k] := by
  unfold mapInsert
  by_cases hany : reg.any (fun p => p.1 == k)
  · rw [if_pos hany, if_pos hany, List.map_map]
    apply List.map_congr_left
    intro p _
    by_cases hp : p.1 = k <;> simp [hp]
  · rw [if_neg hany, if_neg hany]
    simp

theorem any_key_iff {α : Type} (reg : List (String × α)) (k : String) :
    reg.any (fun p => p.1 == k) = true ↔ k ∈ reg.map Prod.fst := by
  rw [List.any_eq_true]
  constructor
  · rintro ⟨p, hp, hpk⟩
    exact List.mem_map.mpr ⟨p, hp, by simpa using hpk⟩
  · rintro h
    rcases List.mem_map.mp h with ⟨p, hp, hpk⟩
    exact ⟨p, hp, by simp [hpk]⟩

theorem keys_nodup_mapInsert {α : Type} {reg : List (String × α)}
    {k : String} {v : α} (h : (reg.map Prod.fst).Nodup) :
    ((mapInsert reg k v).map Prod.fst).Nodup := by
  rw [keys_mapInsert]
  by_cases hany : reg.any (fun p => p.1 == k)
  · rw [if_pos hany]; exact h
  · rw [if_neg hany]
    rw [List.nodup_append]
    refine ⟨h, List.nodup_singleton k, ?_⟩
    intro a ha hak
    rw [List.mem_singleton] at hak
    subst hak
    exact hany ((any_key_iff reg a).mpr ha)

theorem mem_mapInsert {α : Type} {reg : List (String × α)} {k : String}
    {v : α} {p : String × α} (h : p ∈ mapInsert reg k v) :
    p = (k, v) ∨ p ∈ reg := by
  unfold mapInsert at h
  by_cases hany : reg.any (fun p => p.1 == k)
  · rw [if_pos hany] at h
    rcases List.mem_map.mp h with ⟨q, hq, hqp⟩
    by_cases hqk : q.1 = k
    · left; rw [← hqp]; simp [hqk]
    · right; rw [← hqp]; simpa [hqk] using hq
  · rw [if_neg hany] at h
    rw [List.mem_append, List.mem_singleton] at h
    tauto

theorem lookupMap_eq_none_iff {α : Type} (reg : List (String × α))
    (k : String) : lookupMap reg k = none ↔ k ∉ reg.map Prod.fst := by
  unfold lookupMap
  rw [Option.map_eq_none', List.find?_eq_none]
  constructor
  · intro h hk
    rcases List.mem_map.mp hk with ⟨p, hp, hpk⟩
    exact h p hp (by simp [hpk])
  · intro h p hp hpk
    exact h (List.mem_map.mpr ⟨p, hp, by simpa using hpk⟩)

theorem lookupMap_mem {α : Type} {reg : List (String × α)} {k : String}
    {v : α} (h : lookupMap reg k = some v) : (k, v) ∈ reg := by
  unfold lookupMap at h
  rcases Option.map_eq_some'.mp h with ⟨q, hq, hqv⟩
  have hq1 : q.1 = k := by
    have := List.find?_some hq
    simpa using this
  have hqmem := List.mem_of_find?_eq_some hq
  have : q = (k, v) := by
    cases q
    simp only at hq1 hqv
    rw [hq1, hqv]
  rw [← this]
  exact hqmem

theorem lookup_foldl_mapInsert_getLast {α : Type} (key : α → String) :
    ∀ (xs : List α) (k : String),
      lookupMap (xs.foldl (fun r x => mapInsert r (key x) x) []) k
        = (xs.filter (fun x => key x == k)).getLast? := by
  intro xs
  induction xs using List.reverseRecOn with
  | nil => intro k; rfl
  | append_singleton ys x ih =>
      intro k
      rw [List.foldl_append, List.filter_append]
      simp only [List.foldl_cons, List.foldl_nil]
      by_cases hx : key x = k
      · subst hx
        rw [lookupMap_mapInsert_self]
        simp [List.getLast?_concat]
      · rw [lookupMap_mapInsert_ne _ _ (fun hk => hx hk.symm), ih k]
        have : (List.filter (fun y => key y == k) [x]) = [] := by
          simp [List.filter, beq_false_of_ne hx]
        rw [this, List.append_nil]

theorem keys_nodup_foldl {α : Type} (key : α → String) :
    ∀ (xs : List α) (reg : List (String × α)),
      (reg.map Prod.fst).Nodup →
      ((xs.foldl (fun r x => mapInsert r (key x) x) reg).map Prod.fst).Nodup := by
  intro xs
  induction xs with
  | nil => intro reg h; exact h
  | cons x xs ih => intro reg h; exact ih _ (keys_nodup_mapInsert h)

theorem val_key_foldl {α : Type} (key : α → String) :
    ∀ (xs : List α) (reg : List (String × α)),
      (∀ p ∈ reg, key p.2 = p.1) →
      ∀ p ∈ xs.foldl (fun r x => mapInsert r (key x) x) reg, key p.2 = p.1 := by
  intro xs
  induction xs with
  | nil => intro reg h; exact h
  | cons x xs ih =>
      intro reg h
      refine ih _ ?_
      intro p hp
      rcases mem_mapInsert hp with hpe | hpe
      · rw [hpe]
      · exact h p hpe

theorem buildRegistry_keys_nodup (ms : List Migration) :
    ((buildRegistry ms).map Prod.fst).Nodup :=
  keys_nodup_foldl Migration.version ms [] (by simp)

theorem buildSeederMap_keys_nodup (sms : List Seeder) :
    ((buildSeederMap sms).map Prod.fst).Nodup :=
  keys_nodup_foldl Seeder.name sms [] (by simp)

theorem buildRegistry_val_key (ms : List Migration) :
    ∀ p ∈ buildRegistry ms, p.2.version = p.1 :=
  val_key_foldl Migration.version ms [] (by intro p hp; cases hp)

theorem buildSeederMap_val_key (sms : List Seeder) :
    ∀ p ∈ buildSeederMap sms, p.2.name = p.1 :=
  val_key_foldl Seeder.name sms [] (by intro p hp; cases hp)

theorem lookup_buildSeederMap_name {sms : List Seeder} {n : String}
    {s : Seeder} (h : lookupMap (buildSeederMap sms) n = some s) :
    s.name = n :=
  buildSeederMap_val_key sms (n, s) (lookupMap_mem h)

/-! ## Helper lemmas: the migration run loop -/

theorem runSingleMigration_ledger {db : DB} {m : Migration} {db' : DB}
    (h : runSingleMigration db m = .ok db') :
    db'.ledger = db.ledger ++ [⟨m.version, m.description, db.clock⟩] := by
  unfold runSingleMigration at h
  cases hup : m.up db.app with
  | error e => rw [hup] at h; cases h
  | ok a =>
      rw [hup] at h
      cases h
      rfl

theorem runMigrationsLoop_all_applied (applied : List String) :
    ∀ (pairs : List (String × Migration)) (db : DB),
      (∀ p ∈ pairs, p.1 ∈ applied) →
      runMigrationsLoop applied pairs db = ⟨db, [], none⟩ := by
  intro pairs
  induction pairs with
  | nil => intro db _; rfl
  | cons p rest ih =>
      intro db h
      obtain ⟨v, m⟩ := p
      have hv : v ∈ applied := h (v, m) (List.mem_cons_self _ _)
      simp only [runMigrationsLoop, if_pos hv]
      exact ih db (fun q hq => h q (List.mem_cons_of_mem _ hq))

theorem runMigrationsLoop_spec (applied : List String) :
    ∀ (pairs : List (String × Migration)) (db : DB),
      (∀ p ∈ pairs, p.2.version = p.1) →
      ((runMigrationsLoop applied pairs db).err = none ∧
       (runMigrationsLoop applied pairs db).attempted =
         (pairs.filter (fun p => decide (p.1 ∉ applied))).map Prod.fst ∧
       appliedVersions (runMigrationsLoop applied pairs db).db =
         appliedVersions db ++ (runMigrationsLoop applied pairs db).attempted) ∨
      (∃ pre vm post e,
        pairs.filter (fun p => decide (p.1 ∉ applied)) = pre ++ vm :: post ∧
        (runMigrationsLoop applied pairs db).attempted =
          pre.map Prod.fst ++ [vm.1] ∧
        (runMigrationsLoop applied pairs db).err =
          some ("migration " ++ vm.1 ++ " failed: " ++ e) ∧
        appliedVersions (runMigrationsLoop applied pairs db).db =
          appliedVersions db ++ pre.map Prod.fst) := by
  intro pairs
  induction pairs with
  | nil =>
      intro db _
      left
      simp [runMigrationsLoop, appliedVersions]
  | cons p rest ih =>
      intro db hkeys
      obtain ⟨v, m⟩ := p
      have hrest : ∀ q ∈ rest, q.2.version = q.1 :=
        fun q hq => hkeys q (List.mem_cons_of_mem _ hq)
      have hvm : m.version = v := hkeys (v, m) (List.mem_cons_self _ _)
      by_cases hv : v ∈ applied
      · have hf : (((v, m) :: rest).filter (fun p => decide (p.1 ∉ applied)))
            = rest.filter (fun p => decide (p.1 ∉ applied)) := by
          simp [List.filter_cons, hv]
        have hrun : runMigrationsLoop applied ((v, m) :: rest) db
            = runMigrationsLoop applied rest db := by
          simp [runMigrationsLoop, hv]
        rw [hrun, hf]
        exact ih db hrest
      · have hf : (((v, m) :: rest).filter (fun p => decide (p.1 ∉ applied)))
            = (v, m) :: rest.filter (fun p => decide (p.1 ∉ applied)) := by
          simp [List.filter_cons, hv]
        rw [hf]
        cases hrs : runSingleMigration db m with
        | error e =>
            have hrun : runMigrationsLoop applied ((v, m) :: rest) db
                = ⟨db, [v], some ("migration " ++ v ++ " failed: " ++ e)⟩ := by
              simp [runMigrationsLoop, hv, hrs]
            right
            refine ⟨[], (v, m), rest.filter (fun p => decide (p.1 ∉ applied)),
              e, rfl, ?_, ?_, ?_⟩ <;> simp [hrun, appliedVersions]
        | ok db' =>
            have hrun : runMigrationsLoop applied ((v, m) :: rest) db
                = ⟨(runMigrationsLoop applied rest db').db,
                   v :: (runMigrationsLoop applied rest db').attempted,
                   (runMigrationsLoop applied rest db').err⟩ := by
              simp [runMigrationsLoop, hv, hrs]
            have hav : appliedVersions db' = appliedVersions db ++ [v] := by
              unfold appliedVersions
              rw [runSingleMigration_ledger hrs, List.map_append, hvm]
              rfl
            rcases ih db' hrest with ⟨h1, h2, h3⟩ | ⟨pre, vm, post, e, h1, h2, h3, h4⟩
            · left
              rw [hrun]
              refine ⟨h1, ?_, ?_⟩
              · simp only [List.map_cons]
                rw [h2]
              · simp only
                rw [h3, hav, h2, List.append_assoc]
                rfl
            · right
              refine ⟨(v, m) :: pre, vm, post, e, ?_, ?_, ?_, ?_⟩
              · rw [h1]
                rfl
              · rw [hrun]
                simp only [List.map_cons]
                rw [h2]
                rfl
              · rw [hrun]
                exact h3
              · rw [hrun]
                simp only [List.map_cons]
                rw [h4, hav, List.append_assoc]
                rfl

theorem sortedPairs_perm (ms : List Migration) :
    (sortedPairs ms).Perm (buildRegistry ms) :=
  List.perm_insertionSort _ _

theorem sortedPairs_val_key (ms : List Migration) :
    ∀ p ∈ sortedPairs ms, p.2.version = p.1 :=
  fun p hp => buildRegistry_val_key ms p ((sortedPairs_perm ms).mem_iff.mp hp)

theorem sortedPairs_keys_nodup (ms : List Migration) :
    ((sortedPairs ms).map Prod.fst).Nodup :=
  ((sortedPairs_perm ms).map Prod.fst).symm.nodup (buildRegistry_keys_nodup ms)

theorem sortedPairs_sorted (ms : List Migration) :
    List.Pairwise (fun a b : String × Migration => strLe a.1 b.1 = true)
      (sortedPairs ms) := by
  haveI : IsTotal (String × Migration)
      (fun a b : String × Migration => strLe a.1 b.1 = true) :=
    ⟨fun a b => strLe_total a.1 b.1⟩
  haveI : IsTrans (String × Migration)
      (fun a b : String × Migration => strLe a.1 b.1 = true) :=
    ⟨fun _ _ _ h₁ h₂ => strLe_trans h₁ h₂⟩
  exact List.sorted_insertionSort _ _

theorem sortedPairs_keys_pairwise_lt (ms : List Migration) :
    List.Pairwise (fun a b => strLt a b = true)
      ((sortedPairs ms).map Prod.fst) := by
  have hle : List.Pairwise (fun a b => strLe a b = true)
      ((sortedPairs ms).map Prod.fst) :=
    (sortedPairs_sorted ms).map Prod.fst (fun _ _ h => h)
  have hne : List.Pairwise (fun a b : String => a ≠ b)
      ((sortedPairs ms).map Prod.fst) := sortedPairs_keys_nodup ms
  have hand := hle.and hne
  exact hand.imp (fun h => strLt_of_strLe_ne h.1 h.2)

theorem runMigrations_attempted_pending (ms : List Migration) (db : DB) :
    (runMigrations ms db).attempted.Sublist ((pendingPairs ms db).map Prod.fst) := by
  rcases runMigrationsLoop_spec (appliedVersions db) (sortedPairs ms) db
      (sortedPairs_val_key ms) with ⟨_, h2, _⟩ | ⟨pre, vm, post, e, h1, h2, _, _⟩
  · rw [show (runMigrations ms db) =
      runMigrationsLoop (appliedVersions db) (sortedPairs ms) db from rfl, h2]
    exact List.Sublist.refl _
  · rw [show (runMigrations ms db) =
      runMigrationsLoop (appliedVersions db) (sortedPairs ms) db from rfl, h2]
    have hsub : (pre ++ [vm]).Sublist (pre ++ vm :: post) :=
      (List.append_sublist_append_left pre).mpr
        (List.cons_sublist_cons.mpr (List.nil_sublist post))
    have : (pre ++ [vm]).Sublist (pendingPairs ms db) := by
      rw [show pendingPairs ms db =
        (sortedPairs ms).filter (fun p => decide (p.1 ∉ appliedVersions db)) from rfl, h1]
      exact hsub
    simpa using this.map Prod.fst

theorem runMigrations_attempted_sublist (ms : List Migration) (db : DB) :
    (runMigrations ms db).attempted.Sublist ((sortedPairs ms).map Prod.fst) :=
  (runMigrations_attempted_pending ms db).trans
    ((List.filter_sublist _).map Prod.fst)

theorem pendingPairs_not_applied {ms : List Migration} {db : DB}
    {p : String × Migration} (hp : p ∈ pendingPairs ms db) :
    p.1 ∉ appliedVersions db := by
  have := (List.mem_filter.mp hp).2
  simpa using this

/-- C4: `RunMigrations` executes pending migrations in strictly ascending
byte-lexicographic order of their version strings, for every registry and
database; in particular, with versions `2024_01_01_000000_a`,
`2024_01_02_000000_b`, `2024_01_01_500000_c` all pending, the execution
order is `a`, then `c`, then `b`. -/
theorem runMigrations_version_order :
    (∀ (ms : List Migration) (db : DB),
      List.Pairwise (fun a b => strLt a b = true) (runMigrations ms db).attempted) ∧
    (runMigrations [migA, migB, migC] ⟨[], 0, 0⟩).attempted =
      ["2024_01_01_000000_a", "2024_01_01_500000_c", "2024_01_02_000000_b"] := by
  constructor
  · intro ms db
    exact List.Pairwise.sublist (runMigrations_attempted_sublist ms db)
      (sortedPairs_keys_pairwise_lt ms)
  · decide

/-- C3: a migration whose version already has a ledger record is never
re-executed, and re-running the full set after a successful run leaves the
database untouched and attempts zero migrations. -/
theorem runMigrations_idempotent :
    (∀ (ms : List Migration) (db : DB) (v : String),
       v ∈ appliedVersions db → v ∉ (runMigrations ms db).attempted) ∧
    (∀ (ms : List Migration) (db : DB),
       (runMigrations ms db).err = none →
       runMigrations ms (runMigrations ms db).db =
         ⟨(runMigrations ms db).db, [], none⟩) := by
  constructor
  · intro ms db v hv hmem
    have hpend := (runMigrations_attempted_pending ms db).mem hmem
    rcases List.mem_map.mp hpend with ⟨p, hp, hpv⟩
    exact pendingPairs_not_applied hp (hpv ▸ hv)
  · intro ms db herr
    rcases runMigrationsLoop_spec (appliedVersions db) (sortedPairs ms) db
        (sortedPairs_val_key ms) with ⟨_, h2, h3⟩ | ⟨_, _, _, _, _, _, h3, _⟩
    · have hall : ∀ p ∈ sortedPairs ms,
          p.1 ∈ appliedVersions (runMigrations ms db).db := by
        intro p hp
        rw [show (runMigrations ms db) =
          runMigrationsLoop (appliedVersions db) (sortedPairs ms) db from rfl, h3]
        by_cases hap : p.1 ∈ appliedVersions db
        · exact List.mem_append_left _ hap
        · refine List.mem_append_right _ ?_
          rw [h2]
          exact List.mem_map.mpr ⟨p, List.mem_filter.mpr ⟨hp, by simpa using hap⟩, rfl⟩
      exact runMigrationsLoop_all_applied _ (sortedPairs ms) _ hall
    · rw [show (runMigrations ms db).err =
        (runMigrationsLoop (appliedVersions db) (sortedPairs ms) db).err from rfl,
        h3] at herr
      cases herr

/-- Witness for C3 at a concrete registry: `migA` applied in the first run is
absent from a re-run's attempts, and the second run is a no-op. -/
theorem runMigrations_idempotent_witness :
    "2024_01_01_000000_a" ∈
      appliedVersions (runMigrations [migA, migB] ⟨[], 0, 0⟩).db ∧
    "2024_01_01_000000_a" ∉
      (runMigrations [migA, migB]
        (runMigrations [migA, migB] ⟨[], 0, 0⟩).db).attempted ∧
    runMigrations [migA, migB] (runMigrations [migA, migB] ⟨[], 0, 0⟩).db =
      ⟨(runMigrations [migA, migB] ⟨[], 0, 0⟩).db, [], none⟩ := by
  refine ⟨by decide, ?_, ?_⟩
  · exact runMigrations_idempotent.1 [migA, migB]
      (runMigrations [migA, migB] ⟨[], 0, 0⟩).db "2024_01_01_000000_a" (by decide)
  · exact runMigrations_idempotent.2 [migA, migB] ⟨[], 0, 0⟩ (by decide)

/-- C2: when some pending migration's `up` fails, the run attempts exactly
the pending migrations up to and including the failing one, the error names
the failing version, the ledger gains records for exactly the earlier
successes, and neither the failing migration nor any later pending one has a
ledger record. -/
theorem runMigrations_failure_atomic (ms : List Migration) (db : DB)
    (e : String) (h : (runMigrations ms db).err = some e) :
    ∃ pre vm post e',
      pendingPairs ms db = pre ++ vm :: post ∧
      (runMigrations ms db).attempted = pre.map Prod.fst ++ [vm.1] ∧
      e = "migration " ++ vm.1 ++ " failed: " ++ e' ∧
      appliedVersions (runMigrations ms db).db =
        appliedVersions db ++ pre.map Prod.fst ∧
      ∀ q ∈ vm :: post, q.1 ∉ appliedVersions (runMigrations ms db).db := by
  rcases runMigrationsLoop_spec (appliedVersions db) (sortedPairs ms) db
      (sortedPairs_val_key ms) with ⟨h1, _, _⟩ | ⟨pre, vm, post, e', h1, h2, h3, h4⟩
  · rw [show (runMigrations ms db).err =
      (runMigrationsLoop (appliedVersions db) (sortedPairs ms) db).err from rfl,
      h1] at h
    cases h
  · have hpend : pendingPairs ms db = pre ++ vm :: post := h1
    have he : e = "migration " ++ vm.1 ++ " failed: " ++ e' := by
      rw [show (runMigrations ms db).err =
        (runMigrationsLoop (appliedVersions db) (sortedPairs ms) db).err from rfl,
        h3] at h
      exact (Option.some_inj.mp h).symm
    have hnodup : ((pendingPairs ms db).map Prod.fst).Nodup :=
      List.Nodup.sublist ((List.filter_sublist _).map Prod.fst)
        (sortedPairs_keys_nodup ms)
    refine ⟨pre, vm, post, e', hpend, h2, he, h4, ?_⟩
    intro q hq
    have hqpend : q ∈ pendingPairs ms db := by
      rw [hpend]
      exact List.mem_append_right _ hq
    have hqnap : q.1 ∉ appliedVersions db := pendingPairs_not_applied hqpend
    have hqpre : q.1 ∉ pre.map Prod.fst := by
      intro hqpre
      rw [hpend, List.map_append] at hnodup
      rcases List.nodup_append.mp hnodup with ⟨_, _, hdisj⟩
      exact hdisj hqpre (List.mem_map.mpr ⟨q, hq, rfl⟩)
    rw [show (runMigrations ms db).db =
      (runMigrationsLoop (appliedVersions db) (sortedPairs ms) db).db from rfl, h4]
    intro hmem
    rcases List.mem_append.mp hmem with hmem | hmem
    · exact hqnap hmem
    · exact hqpre hmem

/-- Witness for C2: with `a` and `b` pending and the duplicate-versioned
failing `migBad` between them, the run stops at `migBad`'s version. -/
theorem runMigrations_failure_atomic_witness :
    (runMigrations [migA, migB, migBad] ⟨[], 0, 0⟩).err =
      some "migration 2024_01_01_500000_c failed: migration failed: boom" ∧
    ∃ pre vm post e',
      pendingPairs [migA, migB, migBad] ⟨[], 0, 0⟩ = pre ++ vm :: post ∧
      (runMigrations [migA, migB, migBad] ⟨[], 0, 0⟩).attempted =
        pre.map Prod.fst ++ [vm.1] ∧
      "migration 2024_01_01_500000_c failed: migration failed: boom" =
        "migration " ++ vm.1 ++ " failed: " ++ e' ∧
      appliedVersions (runMigrations [migA, migB, migBad] ⟨[], 0, 0⟩).db =
        appliedVersions ⟨[], 0, 0⟩ ++ pre.map Prod.fst ∧
      ∀ q ∈ vm :: post, q.1 ∉
        appliedVersions (runMigrations [migA, migB, migBad] ⟨[], 0, 0⟩).db :=
  ⟨rfl, runMigrations_failure_atomic [migA, migB, migBad] ⟨[], 0, 0⟩ _ rfl⟩

/-! ## Helper lemmas: rollback -/

theorem rollbackLoop_ok (reg : List (String × Migration)) :
    ∀ (recs : List MigrationRecord) (db : DB),
      (∀ rec ∈ recs, ∃ m, lookupMap reg rec.version = some m ∧
        ∀ s, ∃ s', m.down s = .ok s') →
      (rollbackLoop reg recs db).err = none ∧
      (rollbackLoop reg recs db).rolledBack = recs.map (·.version) := by
  intro recs
  induction recs with
  | nil => intro db _; exact ⟨rfl, rfl⟩
  | cons rec rest ih =>
      intro db h
      obtain ⟨m, hm, hdown⟩ := h rec (List.mem_cons_self _ _)
      obtain ⟨s', hs'⟩ := hdown db.app
      have hsingle : rollbackSingleMigration db m rec =
          .ok { db with app := s', ledger := db.ledger.erase rec } := by
        unfold rollbackSingleMigration
        rw [hs']
      have hrest := ih { db with app := s', ledger := db.ledger.erase rec }
        (fun q hq => h q (List.mem_cons_of_mem _ hq))
      simp only [rollbackLoop, hm, hsingle]
      exact ⟨hrest.1, by rw [List.map_cons, ← hrest.2]⟩

/-- C5: `RollbackMigrations(count)` with `count ≥ 1` selects exactly
`min(count, applied)` ledger rows, ordered by `applied_at` descending, rolls
back exactly those (given that each is registered with a succeeding `down`),
succeeds even when fewer than `count` rows exist, and is a no-op success when
none exist. -/
theorem rollbackMigrations_clamps (ms : List Migration) (db : DB)
    (count : Int) (h1 : 1 ≤ count)
    (hsel : ∀ rec ∈ (sortLedgerDesc db.ledger).take count.toNat,
       ∃ m, lookupMap (buildRegistry ms) rec.version = some m ∧
            ∀ s, ∃ s', m.down s = .ok s') :
    (rollbackMigrations ms db count).err = none ∧
    (rollbackMigrations ms db count).rolledBack =
      ((sortLedgerDesc db.ledger).take count.toNat).map (·.version) ∧
    ((sortLedgerDesc db.ledger).take count.toNat).length =
      min count.toNat db.ledger.length ∧
    List.Pairwise (fun a b => b.appliedAt ≤ a.appliedAt)
      ((sortLedgerDesc db.ledger).take count.toNat) ∧
    (db.ledger = [] → rollbackMigrations ms db count = ⟨db, [], none⟩) := by
  have hc : ¬ count ≤ 0 := by omega
  have hloop := rollbackLoop_ok (buildRegistry ms)
    ((sortLedgerDesc db.ledger).take count.toNat) db hsel
  have hunfold : rollbackMigrations ms db count =
      rollbackLoop (buildRegistry ms)
        ((sortLedgerDesc db.ledger).take count.toNat) db := by
    unfold rollbackMigrations
    rw [if_neg hc]
  refine ⟨by rw [hunfold]; exact hloop.1, by rw [hunfold]; exact hloop.2,
    ?_, ?_, ?_⟩
  · rw [List.length_take]
    have : (sortLedgerDesc db.ledger).length = db.ledger.length :=
      (List.perm_insertionSort _ _).length_eq
    rw [this]
  · haveI : IsTotal MigrationRecord
        (fun a b : MigrationRecord => b.appliedAt ≤ a.appliedAt) :=
      ⟨fun a b => le_total b.appliedAt a.appliedAt⟩
    haveI : IsTrans MigrationRecord
        (fun a b : MigrationRecord => b.appliedAt ≤ a.appliedAt) :=
      ⟨fun _ _ _ h₁ h₂ => le_trans h₂ h₁⟩
    exact List.Pairwise.sublist (List.take_sublist _ _)
      (List.sorted_insertionSort _ db.ledger)
  · intro hl
    rw [hunfold]
    have : sortLedgerDesc db.ledger = [] := by rw [hl]; rfl
    rw [this, List.take_nil]
    rfl

/-- Witness for C5: requesting 5 rollbacks with only 2 applied rolls back
exactly those 2, newest first, and succeeds. -/
theorem rollbackMigrations_clamps_witness :
    (rollbackMigrations [rbM1, rbM2] ⟨rbLedger, 0, 2⟩ 5).err = none ∧
    (rollbackMigrations [rbM1, rbM2] ⟨rbLedger, 0, 2⟩ 5).rolledBack =
      ((sortLedgerDesc rbLedger).take 5).map (·.version) ∧
    ((sortLedgerDesc (⟨rbLedger, 0, 2⟩ : DB).ledger).take 5).length = 2 := by
  have h := rollbackMigrations_clamps [rbM1, rbM2] ⟨rbLedger, 0, 2⟩ 5
    (by decide)
    (by
      intro rec hrec
      have hform : rec = ⟨"v2", "d2", 1⟩ ∨ rec = ⟨"v1", "d1", 0⟩ := by
        have : ((sortLedgerDesc rbLedger).take 5) =
            [⟨"v2", "d2", 1⟩, ⟨"v1", "d1", 0⟩] := by decide
        rw [show (sortLedgerDesc (⟨rbLedger, 0, 2⟩ : DB).ledger).take (Int.toNat 5)
          = (sortLedgerDesc rbLedger).take 5 from rfl, this] at hrec
        simpa using hrec
      rcases hform with rfl | rfl
      · exact ⟨rbM2, rfl, fun s => ⟨s + 2, rfl⟩⟩
      · exact ⟨rbM1, rfl, fun s => ⟨s + 1, rfl⟩⟩)
  refine ⟨h.1, h.2.1, ?_⟩
  have := h.2.2.1
  simpa using this

/-- C7: registering two work units under one identity makes the later one win
in the engine's lookup map — stated generally for both engines via the
last-matching-registration characterisation of `lookupMap` — and a
`RunSpecificSeeder` for a duplicated name runs the later registration. -/
theorem duplicate_registration_last_wins :
    (∀ (l : List Migration) (ver : String),
       lookupMap (buildRegistry l) ver =
         (l.filter (fun m => m.version == ver)).getLast?) ∧
    (∀ (l : List Seeder) (n : String),
       lookupMap (buildSeederMap l) n =
         (l.filter (fun s => s.name == n)).getLast?) ∧
    runSpecificSeeder [dupX1, dupX2] "X" 0 = ⟨2, ["X"], none⟩ := by
  refine ⟨?_, ?_, rfl⟩
  · intro l ver
    exact lookup_foldl_mapInsert_getLast Migration.version l ver
  · intro l n
    exact lookup_foldl_mapInsert_getLast Seeder.name l n

/-! ## Claims about `RunSeeders` dispatch -/

/-- C9: with zero seeders registered, `RunSeeders` returns success
immediately for every target name, executing nothing. -/
theorem runSeeders_empty_registry (name : String) (o₁ o₂ : List String)
    (app : Nat) : runSeeders [] name o₁ o₂ app = ⟨app, [], none⟩ := rfl

/-- C10: a non-empty target name that does not already end in `Seeder` has
`Seeder` appended before lookup, so `name` and `name ++ "Seeder"` produce
identical runs. -/
theorem runSeeders_appends_suffix (sms : List Seeder) (name : String)
    (o₁ o₂ : List String) (app : Nat) (h1 : name ≠ "")
    (h2 : hasSuffix name "Seeder" = false) :
    runSeeders sms name o₁ o₂ app = runSeeders sms (name ++ "Seeder") o₁ o₂ app := by
  unfold runSeeders
  by_cases hlen : sms.length = 0
  · rw [if_pos hlen, if_pos hlen]
  · rw [if_neg hlen, if_neg hlen]
    have hne2 : ¬ (name ++ "Seeder") = "" := by
      intro hcontr
      have hdata : (name ++ "Seeder").data = ("" : String).data := by rw [hcontr]
      rw [String.data_append] at hdata
      simpa using congrArg List.length hdata
    rw [if_neg h1, if_neg hne2]
    have hsufTrue : hasSuffix (name ++ "Seeder") "Seeder" = true := by
      unfold hasSuffix
      rw [String.data_append]
      exact decide_eq_true (List.suffix_append _ _)
    simp only [h2, hsufTrue, Bool.false_eq_true, if_false, if_true]

/-- Witness for C10: `"Product"` and `"ProductSeeder"` produce the same run. -/
theorem runSeeders_appends_suffix_witness :
    ("Product" : String) ≠ "" ∧ hasSuffix "Product" "Seeder" = false ∧
    runSeeders [prodSeeder] "Product" [] [] 0 =
      runSeeders [prodSeeder] ("Product" ++ "Seeder") [] [] 0 :=
  ⟨by decide, by decide,
   runSeeders_appends_suffix [prodSeeder] "Product" [] [] 0 (by decide) (by decide)⟩

/-! ## Claim C6: how graph errors are raised and worded -/

/-- C6 counterexample: for the two-cycle `Alpha ↔ Beta`, the global
resolver's cycle error is the fixed string
`circular dependency detected in seeders`, which names neither seeder, so
not every graph error names the offending identities. -/
theorem seeder_graph_error_naming_counterexample :
    resolveDependencies [cycAlpha, cycBeta] ["Alpha", "Beta"] ["Alpha", "Beta"] =
      .error "circular dependency detected in seeders" ∧
    ¬ ("Alpha".data <:+: "circular dependency detected in seeders".data) ∧
    ¬ ("Beta".data <:+: "circular dependency detected in seeders".data) :=
  ⟨rfl, by decide, by decide⟩

/-- C6 (amended): graph errors are fatal and abort before any seed task
executes, in both resolvers; the global resolver's missing-dependency error
names both the dependent and the missing name, and the per-target resolver's
cycle error names a seeder on the cycle; but the global resolver's cycle
error names no seeder, and the per-target resolver's missing-dependency
error names only the missing name (plus the requested target added by the
wrapper), not the intermediate dependent. -/
theorem seeder_graph_errors :
    (∀ (sms : List Seeder) (o₁ o₂ : List String) (app : Nat) (e : String),
       sms.length ≠ 0 →
       resolveDependencies sms o₁ o₂ = .error e →
       runSeeders sms "" o₁ o₂ app =
         ⟨app, [], some ("failed to resolve dependencies: " ++ e)⟩) ∧
    (∀ (sms : List Seeder) (name : String) (app : Nat) (e : String)
       (target : Seeder),
       sms.find? (fun s => s.name == name) = some target →
       resolveDependenciesFor sms target.name = .error e →
       runSpecificSeeder sms name app =
         ⟨app, [],
          some ("failed to resolve dependencies for " ++ name ++ ": " ++ e)⟩) ∧
    (∀ (sms : List Seeder) (o₁ o₂ : List String) (a d : String),
       findMissingDep sms (buildSeederMap sms) = some (a, d) →
       resolveDependencies sms o₁ o₂ =
         .error ("seeder " ++ a ++ " depends on " ++ d ++ " but " ++ d ++
                 " not found")) ∧
    (resolveDependenciesFor [cycAlpha, cycBeta] "Alpha" =
       .error "circular dependency detected involving Alpha") ∧
    (resolveDependenciesFor [chainC, chainB] "CSeeder" =
       .error "seeder Ghost not found" ∧
     ¬ ("BSeeder".data <:+: "seeder Ghost not found".data)) := by
  refine ⟨?_, ?_, ?_, rfl, rfl, by decide⟩
  · intro sms o₁ o₂ app e hlen herr
    unfold runSeeders
    rw [if_neg hlen, if_pos rfl, herr]
  · intro sms name app e target hfind herr
    unfold runSpecificSeeder
    rw [hfind]
    simp only [herr]
  · intro sms o₁ o₂ a d hfind
    unfold resolveDependencies
    simp only [hfind]

/-- Witness for the amended C6 at the concrete two-cycle: the global run
fails before executing anything, with the fixed cycle message. -/
theorem seeder_graph_errors_witness :
    runSeeders [cycAlpha, cycBeta] "" ["Alpha", "Beta"] ["Alpha", "Beta"] 7 =
      ⟨7, [], some ("failed to resolve dependencies: " ++
                    "circular dependency detected in seeders")⟩ :=
  seeder_graph_errors.1 [cycAlpha, cycBeta] ["Alpha", "Beta"] ["Alpha", "Beta"]
    7 "circular dependency detected in seeders" (by decide) rfl

/-! ## The depth-first resolver satisfies its post-condition -/

theorem names_mono {st st' : VisitState}
    (h : ∃ t, st'.result = st.result ++ t) {x : String} (hx : x ∈ st.names) :
    x ∈ st'.names := by
  obtain ⟨t, ht⟩ := h
  unfold VisitState.names
  rw [ht, List.map_append]
  exact List.mem_append_left _ hx

theorem visitGo_post (smap : List (String × Seeder))
    (hmap : ∀ p ∈ smap, p.2.name = p.1) :
    ∀ (fuel : Nat) (roots : List String) (st st' : VisitState),
      visitGo smap fuel roots st = .ok st' → VisitInv smap st →
      VisitPost smap roots st st' := by
  intro fuel
  induction fuel with
  | zero =>
      intro roots st st' h _
      exact absurd h (by simp [visitGo])
  | succ fuel ih =>
      intro roots st st' h hinv
      cases roots with
      | nil =>
          simp only [visitGo] at h
          injection h with h
          subst h
          exact ⟨hinv, rfl, ⟨[], (List.append_nil _).symm⟩,
            fun n hn => absurd hn (List.not_mem_nil n),
            fun x hx => Or.inl hx⟩
      | cons name ns =>
          simp only [visitGo] at h
          by_cases hvg : name ∈ st.visiting
          · rw [if_pos hvg] at h; cases h
          rw [if_neg hvg] at h
          by_cases hvd : name ∈ st.visited
          · rw [if_pos hvd] at h
            obtain ⟨p1, p2, p3, p4, p5⟩ := ih ns st st' h hinv
            have hnamemem : name ∈ st'.names :=
              names_mono p3 (hinv.1 ▸ hvd)
            refine ⟨p1, p2, p3, ?_, ?_⟩
            · intro n hn
              rcases List.mem_cons.mp hn with rfl | hn'
              · exact hnamemem
              · exact p4 n hn'
            · intro x hx
              rcases p5 x hx with hold | ⟨hnv, n, hn, hc⟩
              · exact Or.inl hold
              · exact Or.inr ⟨hnv, n, List.mem_cons_of_mem _ hn, hc⟩
          · rw [if_neg hvd] at h
            cases hlook : lookupMap smap name with
            | none => simp only [hlook] at h; cases h
            | some s =>
                simp only [hlook] at h
                cases hrec : visitGo smap fuel s.dependencies
                    { st with visiting := st.visiting ++ [name] } with
                | error e => simp only [hrec] at h; cases h
                | ok st₂ =>
                    simp only [hrec] at h
                    have hinv₁ : VisitInv smap
                        { st with visiting := st.visiting ++ [name] } := hinv
                    obtain ⟨q1, q2, q3, q4, q5⟩ :=
                      ih s.dependencies _ st₂ hrec hinv₁
                    have hsname : s.name = name :=
                      hmap (name, s) (lookupMap_mem hlook)
                    have hdepsOf : depsOf smap name = s.dependencies := by
                      unfold depsOf
                      rw [hlook]
                    have hvis₂ : st₂.visiting = st.visiting ++ [name] := q2
                    have hnotmem₂ : name ∉ st₂.names := by
                      intro hmem
                      rcases q5 name hmem with hold | ⟨hnv, _⟩
                      · exact hvd (hinv.1 ▸ hold)
                      · exact hnv (List.mem_append_right _
                          (List.mem_singleton.mpr rfl))
                    have hnames₃ :
                        ({ visiting := st₂.visiting.erase name
                         , visited := st₂.visited ++ [name]
                         , result := st₂.result ++ [s] } : VisitState).names =
                          st₂.names ++ [name] := by
                      unfold VisitState.names
                      rw [List.map_append]
                      simp [hsname]
                    have hinv₃ : VisitInv smap
                        { visiting := st₂.visiting.erase name
                        , visited := st₂.visited ++ [name]
                        , result := st₂.result ++ [s] } := by
                      constructor
                      · show st₂.visited ++ [name] = _
                        rw [hnames₃, q1.1]
                      · rw [hnames₃]
                        refine StrictDepOrder.append_one q1.2 hnotmem₂ ?_
                        rw [hdepsOf]
                        exact q4
                    obtain ⟨r1, r2, r3, r4, r5⟩ := ih ns _ st' h hinv₃
                    have hvis₃ :
                        ({ visiting := st₂.visiting.erase name
                         , visited := st₂.visited ++ [name]
                         , result := st₂.result ++ [s] } : VisitState).visiting =
                          st.visiting := by
                      show st₂.visiting.erase name = st.visiting
                      rw [hvis₂, List.erase_append_right _ hvg,
                        List.erase_cons_head, List.append_nil]
                    have hnamemem₃ : name ∈
                        ({ visiting := st₂.visiting.erase name
                         , visited := st₂.visited ++ [name]
                         , result := st₂.result ++ [s] } : VisitState).names := by
                      rw [hnames₃]
                      exact List.mem_append_right _ (List.mem_singleton.mpr rfl)
                    refine ⟨r1, ?_, ?_, ?_, ?_⟩
                    · rw [r2]
                      exact hvis₃
                    · obtain ⟨t₁, ht₁⟩ := q3
                      obtain ⟨t₂, ht₂⟩ := r3
                      refine ⟨t₁ ++ ([s] ++ t₂), ?_⟩
                      rw [ht₂]
                      show st₂.result ++ [s] ++ t₂ = _
                      rw [ht₁]
                      show st.result ++ t₁ ++ [s] ++ t₂ = _
                      rw [List.append_assoc, List.append_assoc]
                    · intro n hn
                      rcases List.mem_cons.mp hn with rfl | hn'
                      · exact names_mono r3 hnamemem₃
                      · exact r4 n hn'
                    · intro x hx
                      rcases r5 x hx with hx₃ | ⟨hnv₃, n, hn, hc⟩
                      · rw [hnames₃] at hx₃
                        rcases List.mem_append.mp hx₃ with hx₂ | hx₁
                        · rcases q5 x hx₂ with hold | ⟨hnv₁, d, hd, hc'⟩
                          · exact Or.inl hold
                          · refine Or.inr ⟨fun hxv => hnv₁
                              (List.mem_append_left _ hxv),
                              name, List.mem_cons_self _ _, Or.inr ?_⟩
                            have hstep : depStep smap name d := by
                              show d ∈ depsOf smap name
                              rw [hdepsOf]
                              exact hd
                            rcases hc' with rfl | hr
                            · exact Relation.TransGen.single hstep
                            · exact Relation.TransGen.head hstep hr
                        · rw [List.mem_singleton] at hx₁
                          subst hx₁
                          exact Or.inr ⟨hvg, x, List.mem_cons_self _ _,
                            Or.inl rfl⟩
                      · rw [hvis₃] at hnv₃
                        exact Or.inr ⟨hnv₃, n, List.mem_cons_of_mem _ hn, hc⟩

theorem resolveDependenciesFor_spec {sms : List Seeder} {t : String}
    {l : List Seeder} (h : resolveDependenciesFor sms t = .ok l) :
    (l.map Seeder.name).Nodup ∧
    (∀ x, x ∈ l.map Seeder.name ↔
      (x = t ∨ Reaches (buildSeederMap sms) t x)) ∧
    StrictDepOrder (depsOf (buildSeederMap sms)) (l.map Seeder.name) := by
  unfold resolveDependenciesFor at h
  cases hv : visitGo (buildSeederMap sms) (seederFuel (buildSeederMap sms))
      [t] ⟨[], [], []⟩ with
  | error e => simp only [hv] at h; cases h
  | ok st =>
      simp only [hv] at h
      injection h with h
      subst h
      obtain ⟨p1, _, _, p4, p5⟩ :=
        visitGo_post (buildSeederMap sms) (buildSeederMap_val_key sms) _ [t]
          ⟨[], [], []⟩ st hv ⟨rfl, StrictDepOrder.nil _⟩
      have hnames : st.names = st.result.map Seeder.name := rfl
      refine ⟨?_, ?_, ?_⟩
      · rw [← hnames]
        exact p1.2.1
      · intro x
        constructor
        · intro hx
          rcases p5 x (hnames ▸ hx) with hold | ⟨_, n, hn, hc⟩
          · exact absurd hold (by simp [VisitState.names])
          · rw [List.mem_singleton] at hn
            subst hn
            exact hc
        · intro hx
          rcases hx with rfl | hr
          · exact hnames ▸ p4 x (List.mem_singleton.mpr rfl)
          · have htm : t ∈ st.names := p4 t (List.mem_singleton.mpr rfl)
            exact hnames ▸ (StrictDepOrder.reach p1.2 htm hr).1
      · rw [← hnames]
        exact p1.2

/-- C8: resolving for a single target yields exactly the target's dependency
closure — the target plus everything it transitively requires, without
duplicates, dependencies strictly before dependents — and nothing else. -/
theorem resolveDependenciesFor_closure (sms : List Seeder) (t : String)
    (l : List Seeder) (h : resolveDependenciesFor sms t = .ok l) :
    (l.map Seeder.name).Nodup ∧
    (∀ x, x ∈ l.map Seeder.name ↔
      (x = t ∨ Reaches (buildSeederMap sms) t x)) ∧
    (∀ a ∈ l.map Seeder.name, ∀ d, Reaches (buildSeederMap sms) a d →
       d ∈ l.map Seeder.name ∧
       (l.map Seeder.name).indexOf d < (l.map Seeder.name).indexOf a) := by
  obtain ⟨h1, h2, h3⟩ := resolveDependenciesFor_spec h
  exact ⟨h1, h2, fun a ha d hr => StrictDepOrder.reach h3 ha hr⟩

/-- Witness for C8: with `A ← B ← C` and unrelated `D`, resolving for `C`
yields exactly `A`, `B`, `C` in that order, and `D` is excluded. -/
theorem resolveDependenciesFor_closure_witness :
    resolveDependenciesFor [exA, exB, exC, exD] "C" = .ok [exA, exB, exC] ∧
    [exA, exB, exC].map Seeder.name = ["A", "B", "C"] ∧
    "D" ∉ [exA, exB, exC].map Seeder.name ∧
    (([exA, exB, exC].map Seeder.name).Nodup ∧
     (∀ x, x ∈ [exA, exB, exC].map Seeder.name ↔
       (x = "C" ∨ Reaches (buildSeederMap [exA, exB, exC, exD]) "C" x)) ∧
     (∀ a ∈ [exA, exB, exC].map Seeder.name, ∀ d,
        Reaches (buildSeederMap [exA, exB, exC, exD]) a d →
        d ∈ [exA, exB, exC].map Seeder.name ∧
        ([exA, exB, exC].map Seeder.name).indexOf d <
          ([exA, exB, exC].map Seeder.name).indexOf a)) :=
  ⟨rfl, by decide, by decide,
   resolveDependenciesFor_closure [exA, exB, exC, exD] "C" [exA, exB, exC] rfl⟩

/-! ## Kahn's algorithm: characterising the built graph and in-degrees -/

theorem addEdges_fst (smap : List (String × Seeder)) (name : String) :
    ∀ (ds : List String) (p : (String → List String) × (String → Int))
      (c : String),
      (addEdges smap name ds p).1 c = p.1 c ++ List.replicate (ds.count c) name := by
  intro ds
  induction ds with
  | nil => intro p c; simp [addEdges]
  | cons dep ds ih =>
      intro p c
      rw [addEdges, ih]
      by_cases hc : c = dep
      · subst hc
        rw [List.count_cons_self, List.replicate_succ]
        simp
      · have hne : (dep == c) = false :=
          beq_false_of_ne (fun h : dep = c => hc h.symm)
        simp [hc, List.count_cons, hne]

theorem addEdges_snd (smap : List (String × Seeder)) (name : String) :
    ∀ (ds : List String) (p : (String → List String) × (String → Int))
      (x : String),
      (addEdges smap name ds p).2 x =
        if x = name then p.2 x + (ds.length : Int) else p.2 x := by
  intro ds
  induction ds with
  | nil =>
      intro p x
      by_cases hx : x = name <;> simp [addEdges, hx]
  | cons dep ds ih =>
      intro p x
      rw [addEdges, ih]
      by_cases hx : x = name
      · subst hx
        simp only [if_pos rfl, List.length_cons]
        push_cast
        ring
      · simp only [if_neg hx]

theorem buildGraphDeg_fold_snd (smap : List (String × Seeder)) :
    ∀ (order : List String)
      (acc : (String → List String) × (String → Int)) (x : String),
      order.Nodup →
      (order.foldl (fun acc name => addEdges smap name (depsOf smap name) acc)
        acc).2 x =
        acc.2 x + (if x ∈ order then ((depsOf smap x).length : Int) else 0) := by
  intro order
  induction order with
  | nil => intro acc x _; simp
  | cons n order ih =>
      intro acc x hnd
      rw [List.foldl_cons, ih _ _ (List.nodup_cons.mp hnd).2]
      rw [addEdges_snd]
      by_cases hx : x = n
      · subst hx
        have hxo : x ∉ order := (List.nodup_cons.mp hnd).1
        simp only [if_pos rfl, if_neg hxo, List.mem_cons, true_or, if_pos]
        ring
      · have hmem : (x ∈ n :: order) ↔ (x ∈ order) := by
          simp [List.mem_cons, hx]
        simp only [if_neg hx, hmem]

theorem buildGraphDeg_fold_fst (smap : List (String × Seeder)) :
    ∀ (order : List String)
      (acc : (String → List String) × (String → Int)) (c x : String),
      order.Nodup →
      ((order.foldl (fun acc name => addEdges smap name (depsOf smap name) acc)
        acc).1 c).count x =
        (acc.1 c).count x +
          (if x ∈ order then (depsOf smap x).count c else 0) := by
  intro order
  induction order with
  | nil => intro acc c x _; simp
  | cons n order ih =>
      intro acc c x hnd
      rw [List.foldl_cons, ih _ _ _ (List.nodup_cons.mp hnd).2]
      rw [addEdges_fst, List.count_append, List.count_replicate]
      by_cases hx : x = n
      · subst hx
        have hxo : x ∉ order := (List.nodup_cons.mp hnd).1
        rw [beq_self_eq_true, if_pos rfl, if_neg hxo,
          if_pos (List.mem_cons_self x order)]
        omega
      · have hne : (n == x) = false :=
          beq_false_of_ne (fun h : n = x => hx h.symm)
        have hmem : (if x ∈ n :: order then List.count c (depsOf smap x) else 0)
            = (if x ∈ order then List.count c (depsOf smap x) else 0) := by
          by_cases hmm : x ∈ order
          · rw [if_pos hmm, if_pos (List.mem_cons_of_mem _ hmm)]
          · rw [if_neg hmm, if_neg (by simp [hx, hmm])]
        rw [hne, if_neg Bool.false_ne_true, hmem]
        omega

theorem buildGraphDeg_deg (smap : List (String × Seeder))
    (order : List String) (hnd : order.Nodup) (x : String) :
    (buildGraphDeg smap order).2 x =
      if x ∈ order then ((depsOf smap x).length : Int) else 0 := by
  unfold buildGraphDeg
  rw [buildGraphDeg_fold_snd smap order _ x hnd]
  simp

theorem buildGraphDeg_count (smap : List (String × Seeder))
    (order : List String) (hnd : order.Nodup) (c x : String) :
    ((buildGraphDeg smap order).1 c).count x =
      if x ∈ order then (depsOf smap x).count c else 0 := by
  unfold buildGraphDeg
  rw [buildGraphDeg_fold_fst smap order _ c x hnd]
  simp

theorem pending_drop_one {result : List String} {current : String}
    (hc : current ∉ result) :
    ∀ ds : List String,
      ((ds.filter (fun d => decide (d ∉ result))).length : Int) =
        ((ds.filter (fun d => decide (d ∉ result ++ [current]))).length : Int)
        + (ds.count current : Int) := by
  intro ds
  induction ds with
  | nil => simp
  | cons d ds ih =>
      rw [List.filter_cons, List.filter_cons, List.count_cons]
      by_cases h1 : d = current
      · subst h1
        rw [if_pos (decide_eq_true hc),
          if_neg (by simp : ¬ (decide (d ∉ result ++ [d]) = true))]
        simp only [beq_self_eq_true, if_true, List.length_cons]
        push_cast
        omega
      · have hcnt0 : (if (d == current) = true then 1 else 0) = 0 := by
          rw [beq_false_of_ne h1]
          simp
        rw [hcnt0]
        by_cases h2 : d ∈ result
        · rw [if_neg (by simp [h2] : ¬ (decide (d ∉ result) = true)),
            if_neg (by simp [List.mem_append, h2] :
              ¬ (decide (d ∉ result ++ [current]) = true))]
          simpa using ih
        · rw [if_pos (decide_eq_true h2),
            if_pos (decide_eq_true
              (by simp [List.mem_append, h2, h1] : d ∉ result ++ [current]))]
          simp only [List.length_cons]
          push_cast
          push_cast at ih
          omega

theorem processNeighbors_spec (smap : List (String × Seeder))
    (result' : List String) :
    ∀ (ns : List String) (deg : String → Int) (queue : List String),
      (result' ++ queue).Nodup →
      (∀ x ∈ queue, deg x = 0) →
      (∀ x ∈ result', deg x ≤ 0) →
      (∀ x ∈ smap.map Prod.fst, x ∉ result' →
        deg x =
          (((depsOf smap x).filter (fun d => decide (d ∉ result'))).length : Int)
          + (ns.count x : Int)) →
      (∀ x ∈ ns, x ∈ smap.map Prod.fst) →
      (∀ x ∈ queue, x ∈ smap.map Prod.fst) →
      ((result' ++ (processNeighbors ns deg queue).2).Nodup ∧
       (∀ x ∈ (processNeighbors ns deg queue).2,
          (processNeighbors ns deg queue).1 x = 0) ∧
       (∀ x ∈ result', (processNeighbors ns deg queue).1 x ≤ 0) ∧
       (∀ x ∈ smap.map Prod.fst, x ∉ result' →
          (processNeighbors ns deg queue).1 x =
            (((depsOf smap x).filter
                (fun d => decide (d ∉ result'))).length : Int)) ∧
       (∀ x ∈ (processNeighbors ns deg queue).2, x ∈ smap.map Prod.fst)) := by
  intro ns
  induction ns with
  | nil =>
      intro deg queue hA hB hC hD hns hq
      refine ⟨hA, hB, hC, ?_, hq⟩
      intro x hx hxr
      have := hD x hx hxr
      simpa using this
  | cons nb ns ih =>
      intro deg queue hA hB hC hD hns hq
      have hnbkeys : nb ∈ smap.map Prod.fst := hns nb (List.mem_cons_self _ _)
      have hnbq : nb ∉ queue := by
        intro hmem
        have h0 : deg nb = 0 := hB nb hmem
        have hnr : nb ∉ result' := by
          intro hr
          rcases List.nodup_append.mp hA with ⟨_, _, hdisj⟩
          exact hdisj hr hmem
        have hdnb := hD nb hnbkeys hnr
        rw [h0, List.count_cons_self] at hdnb
        have hlen : (0 : Int) ≤
            (((depsOf smap nb).filter
              (fun d => decide (d ∉ result'))).length : Int) := by
          positivity
        push_cast at hdnb
        omega
      have hD₁ : ∀ x ∈ smap.map Prod.fst, x ∉ result' →
          (fun x => if x = nb then deg nb - 1 else deg x) x =
            (((depsOf smap x).filter
              (fun d => decide (d ∉ result'))).length : Int)
            + (ns.count x : Int) := by
        intro x hx hxr
        by_cases hxnb : x = nb
        · subst hxnb
          have := hD x hx hxr
          rw [List.count_cons_self] at this
          simp only [if_pos rfl]
          push_cast at this ⊢
          omega
        · have := hD x hx hxr
          rw [List.count_cons, beq_false_of_ne (fun h : nb = x => hxnb h.symm)]
            at this
          simp only [if_neg hxnb]
          simpa using this
      have hC₁ : ∀ x ∈ result',
          (fun x => if x = nb then deg nb - 1 else deg x) x ≤ 0 := by
        intro x hx
        by_cases hxnb : x = nb
        · subst hxnb
          have := hC x hx
          simp only [if_pos rfl]
          omega
        · simp only [if_neg hxnb]
          exact hC x hx
      have hns₁ : ∀ x ∈ ns, x ∈ smap.map Prod.fst :=
        fun x hx => hns x (List.mem_cons_of_mem _ hx)
      have hstep : processNeighbors (nb :: ns) deg queue =
          processNeighbors ns (fun x => if x = nb then deg nb - 1 else deg x)
            (if deg nb - 1 = 0 then queue ++ [nb] else queue) := rfl
      rw [hstep]
      by_cases hd0 : deg nb - 1 = 0
      · rw [if_pos hd0]
        have hnbr : nb ∉ result' := by
          intro hr
          have := hC nb hr
          omega
        have hA₁ : (result' ++ (queue ++ [nb])).Nodup := by
          rw [← List.append_assoc, List.nodup_append]
          refine ⟨hA, List.nodup_singleton nb, ?_⟩
          intro a ha hab
          rw [List.mem_singleton] at hab
          subst hab
          rcases List.mem_append.mp ha with h | h
          · exact hnbr h
          · exact hnbq h
        have hB₁ : ∀ x ∈ queue ++ [nb],
            (fun x => if x = nb then deg nb - 1 else deg x) x = 0 := by
          intro x hx
          rcases List.mem_append.mp hx with h | h
          · have hxnb : ¬ x = nb := fun he => hnbq (he ▸ h)
            simp only [if_neg hxnb]
            exact hB x h
          · rw [List.mem_singleton] at h
            subst h
            simp only [if_pos rfl]
            exact hd0
        have hq₁ : ∀ x ∈ queue ++ [nb], x ∈ smap.map Prod.fst := by
          intro x hx
          rcases List.mem_append.mp hx with h | h
          · exact hq x h
          · rw [List.mem_singleton] at h
            subst h
            exact hnbkeys
        exact ih _ _ hA₁ hB₁ hC₁ hD₁ hns₁ hq₁
      · rw [if_neg hd0]
        have hB₁ : ∀ x ∈ queue,
            (fun x => if x = nb then deg nb - 1 else deg x) x = 0 := by
          intro x hx
          have hxnb : ¬ x = nb := fun he => hnbq (he ▸ hx)
          simp only [if_neg hxnb]
          exact hB x hx
        exact ih _ _ hA hB₁ hC₁ hD₁ hns₁ hq

theorem kahnLoop_strictDepOrder (smap : List (String × Seeder))
    (g : String → List String)
    (hg : ∀ c x, (g c).count x =
      if x ∈ smap.map Prod.fst then (depsOf smap x).count c else 0) :
    ∀ (fuel : Nat) (queue : List String) (deg : String → Int)
      (result : List String),
      KahnInv smap queue deg result →
      StrictDepOrder (depsOf smap) (kahnLoop g fuel queue deg result) := by
  intro fuel
  induction fuel with
  | zero =>
      intro queue deg result hinv
      exact hinv.2.2.2.2.2.2
  | succ fuel ih =>
      intro queue deg result hinv
      cases queue with
      | nil => exact hinv.2.2.2.2.2.2
      | cons current rest =>
          obtain ⟨hA, hB, hC, hD, hRK, hQK, hS⟩ := hinv
          have hck : current ∈ smap.map Prod.fst :=
            hQK current (List.mem_cons_self _ _)
          have hcr : current ∉ result := by
            rcases List.nodup_append.mp hA with ⟨_, _, hdisj⟩
            exact fun hr => hdisj hr (List.mem_cons_self _ _)
          have hdeg0 : deg current = 0 := hB current (List.mem_cons_self _ _)
          have hpend0 : ((depsOf smap current).filter
              (fun d => decide (d ∉ result))).length = 0 := by
            have hthis := hD current hck hcr
            rw [hdeg0] at hthis
            exact_mod_cast hthis.symm
          have hdeps : ∀ d ∈ depsOf smap current, d ∈ result := by
            intro d hd
            by_contra hdn
            have hmem : d ∈ (depsOf smap current).filter
                (fun d => decide (d ∉ result)) :=
              List.mem_filter.mpr ⟨hd, by simpa using hdn⟩
            rw [List.length_eq_zero] at hpend0
            rw [hpend0] at hmem
            cases hmem
          have hS' : StrictDepOrder (depsOf smap) (result ++ [current]) :=
            StrictDepOrder.append_one hS hcr hdeps
          have hApre : ((result ++ [current]) ++ rest).Nodup := by
            rw [List.append_assoc]
            exact hA
          have hBpre : ∀ x ∈ rest, deg x = 0 :=
            fun x hx => hB x (List.mem_cons_of_mem _ hx)
          have hCpre : ∀ x ∈ result ++ [current], deg x ≤ 0 := by
            intro x hx
            rcases List.mem_append.mp hx with h | h
            · exact hC x h
            · rw [List.mem_singleton] at h
              subst h
              rw [hdeg0]
          have hDpre : ∀ x ∈ smap.map Prod.fst, x ∉ result ++ [current] →
              deg x = (((depsOf smap x).filter
                (fun d => decide (d ∉ result ++ [current]))).length : Int)
                + ((g current).count x : Int) := by
            intro x hx hxr'
            have hxr : x ∉ result := fun h => hxr' (List.mem_append_left _ h)
            have hdx := hD x hx hxr
            rw [hdx, pending_drop_one hcr (depsOf smap x)]
            congr 1
            rw [hg current x, if_pos hx]
          have hnspre : ∀ x ∈ g current, x ∈ smap.map Prod.fst := by
            intro x hx
            by_contra hxk
            have hcnt := hg current x
            rw [if_neg hxk] at hcnt
            rw [List.count_eq_zero] at hcnt
            exact hcnt hx
          have hqpre : ∀ x ∈ rest, x ∈ smap.map Prod.fst :=
            fun x hx => hQK x (List.mem_cons_of_mem _ hx)
          obtain ⟨nA, nB, nC, nD, nQ⟩ :=
            processNeighbors_spec smap (result ++ [current]) (g current) deg
              rest hApre hBpre hCpre hDpre hnspre hqpre
          have hRK' : ∀ x ∈ result ++ [current], x ∈ smap.map Prod.fst := by
            intro x hx
            rcases List.mem_append.mp hx with h | h
            · exact hRK x h
            · rw [List.mem_singleton] at h
              subst h
              exact hck
          have hstep : kahnLoop g (fuel + 1) (current :: rest) deg result =
              kahnLoop g fuel (processNeighbors (g current) deg rest).2
                (processNeighbors (g current) deg rest).1
                (result ++ [current]) := rfl
          rw [hstep]
          exact ih _ _ _ ⟨nA, nB, nC, nD, hRK', nQ, hS'⟩

theorem topologicalSort_strictDepOrder {smap : List (String × Seeder)}
    {o₁ o₂ : List String} {l : List String}
    (hnd : (smap.map Prod.fst).Nodup)
    (h₁ : (smap.map Prod.fst).Perm o₁) (h₂ : (smap.map Prod.fst).Perm o₂)
    (h : topologicalSort smap o₁ o₂ = .ok l) :
    StrictDepOrder (depsOf smap) l := by
  have hnd₁ : o₁.Nodup := h₁.nodup hnd
  have hnd₂ : o₂.Nodup := h₂.nodup hnd
  have hgKeys : ∀ c x, ((buildGraphDeg smap o₁).1 c).count x =
      if x ∈ smap.map Prod.fst then (depsOf smap x).count c else 0 := by
    intro c x
    rw [buildGraphDeg_count smap o₁ hnd₁ c x]
    by_cases hx : x ∈ smap.map Prod.fst
    · rw [if_pos (h₁.mem_iff.mp hx), if_pos hx]
    · rw [if_neg (fun hh => hx (h₁.mem_iff.mpr hh)), if_neg hx]
  have hinv : KahnInv smap
      (o₂.filter (fun n => (buildGraphDeg smap o₁).2 n == 0))
      (buildGraphDeg smap o₁).2 [] := by
    refine ⟨?_, ?_, ?_, ?_, ?_, ?_, StrictDepOrder.nil _⟩
    · rw [List.nil_append]
      exact hnd₂.filter _
    · intro x hx
      have := (List.mem_filter.mp hx).2
      exact eq_of_beq this
    · intro x hx
      cases hx
    · intro x hx _
      rw [buildGraphDeg_deg smap o₁ hnd₁ x, if_pos (h₁.mem_iff.mp hx)]
      have hself : (depsOf smap x).filter
          (fun d => decide (d ∉ ([] : List String))) = depsOf smap x :=
        List.filter_eq_self.mpr (fun a _ => by simp)
      rw [hself]
    · intro x hx
      cases hx
    · intro x hx
      exact h₂.mem_iff.mpr ((List.mem_filter.mp hx).1)
  have hsdo := kahnLoop_strictDepOrder smap (buildGraphDeg smap o₁).1 hgKeys
    (smap.length + 1)
    (o₂.filter (fun n => (buildGraphDeg smap o₁).2 n == 0))
    (buildGraphDeg smap o₁).2 [] hinv
  unfold topologicalSort at h
  by_cases hlen : (kahnLoop (buildGraphDeg smap o₁).1 (smap.length + 1)
      (o₂.filter (fun n => (buildGraphDeg smap o₁).2 n == 0))
      (buildGraphDeg smap o₁).2 []).length ≠ smap.length
  · rw [if_pos hlen] at h
    cases h
  · rw [if_neg hlen] at h
    injection h with h
    subst h
    exact hsdo

theorem resolveDependencies_strictDepOrder {sms : List Seeder}
    {o₁ o₂ : List String} {l : List String}
    (h₁ : ((buildSeederMap sms).map Prod.fst).Perm o₁)
    (h₂ : ((buildSeederMap sms).map Prod.fst).Perm o₂)
    (h : resolveDependencies sms o₁ o₂ = .ok l) :
    StrictDepOrder (depsOf (buildSeederMap sms)) l := by
  unfold resolveDependencies at h
  cases hfind : findMissingDep sms (buildSeederMap sms) with
  | some p =>
      simp only [hfind] at h
      cases h
  | none =>
      simp only [hfind] at h
      exact topologicalSort_strictDepOrder (buildSeederMap_keys_nodup sms)
        h₁ h₂ h

/-- C1: for every acyclic graph over the registered seeders — and indeed
whenever either resolver returns an order, which for valid map-iteration
orders happens exactly when the graph is acyclic — the returned order places
every seeder strictly after all of its transitive dependencies, for both the
global resolver (Kahn's algorithm, any map-iteration orders) and the
per-target resolver. -/
theorem resolved_order_topological :
    (∀ (sms : List Seeder) (o₁ o₂ : List String) (l : List String),
       ((buildSeederMap sms).map Prod.fst).Perm o₁ →
       ((buildSeederMap sms).map Prod.fst).Perm o₂ →
       resolveDependencies sms o₁ o₂ = .ok l →
       ∀ a ∈ l, ∀ d, Reaches (buildSeederMap sms) a d →
         d ∈ l ∧ l.indexOf d < l.indexOf a) ∧
    (∀ (sms : List Seeder) (t : String) (l : List Seeder),
       resolveDependenciesFor sms t = .ok l →
       ∀ a ∈ l.map Seeder.name, ∀ d, Reaches (buildSeederMap sms) a d →
         d ∈ l.map Seeder.name ∧
         (l.map Seeder.name).indexOf d <
           (l.map Seeder.name).indexOf a) := by
  constructor
  · intro sms o₁ o₂ l h₁ h₂ h a ha d hr
    exact StrictDepOrder.reach (resolveDependencies_strictDepOrder h₁ h₂ h)
      ha hr
  · intro sms t l h a ha d hr
    exact StrictDepOrder.reach (resolveDependenciesFor_spec h).2.2 ha hr

/-- Witness for C1 on `B` depending on `A`: both resolvers put `A` before
`B`. -/
theorem resolved_order_topological_witness :
    resolveDependencies [exA, exB] ["A", "B"] ["A", "B"] = .ok ["A", "B"] ∧
    resolveDependenciesFor [exA, exB] "B" = .ok [exA, exB] ∧
    ("A" ∈ (["A", "B"] : List String) ∧
     (["A", "B"] : List String).indexOf "A" <
       (["A", "B"] : List String).indexOf "B") ∧
    ("A" ∈ [exA, exB].map Seeder.name ∧
     ([exA, exB].map Seeder.name).indexOf "A" <
       ([exA, exB].map Seeder.name).indexOf "B") := by
  have hstep : Reaches (buildSeederMap [exA, exB]) "B" "A" :=
    Relation.TransGen.single
      (by decide : "A" ∈ depsOf (buildSeederMap [exA, exB]) "B")
  refine ⟨rfl, rfl, ?_, ?_⟩
  · exact resolved_order_topological.1 [exA, exB] ["A", "B"] ["A", "B"]
      ["A", "B"] (by decide) (by decide) rfl "B" (by decide) "A" hstep
  · exact resolved_order_topological.2 [exA, exB] "B" [exA, exB] rfl
      "B" (by decide) "A" hstep

end GoCleanGin
